import Mathlib

/-!
# TextConvert Pro — verification of the text transformation and analysis engine

Shallow embedding of the pure core of the repository (the conversion
functions in `src/App.jsx` and the analysis computation in the
`TextAnalysis` component): strings are modeled as lists of Unicode code
points (`List Nat`), JavaScript number arithmetic is modeled over `ℚ`
with `Math.round x = ⌊x + 1/2⌋`, and the ASCII case mappings of
`toLowerCase` / `toUpperCase` (the only ones the claims exercise) are
modeled explicitly.  Each regex-driven transform is embedded as a
left-to-right scanner that mirrors the non-overlapping leftmost-match
semantics of `String.prototype.replace` / `String.prototype.split`.
-/

set_option maxHeartbeats 1600000

/-- Code points of a string literal, used to write concrete inputs. -/
def str (s : String) : List Nat :=
  s.data.map Char.toNat

/-- JavaScript `\s` on the ASCII range: space, tab, LF, VT, FF, CR. -/
def isWs (c : Nat) : Bool :=
  c == 32 || c == 9 || c == 10 || c == 11 || c == 12 || c == 13

/-- JavaScript `\w`: ASCII letters, digits and underscore. -/
def isWordChar (c : Nat) : Bool :=
  decide ((48 ≤ c ∧ c ≤ 57) ∨ (65 ≤ c ∧ c ≤ 90) ∨ (97 ≤ c ∧ c ≤ 122) ∨ c = 95)

/-- ASCII digit. -/
def isDigitCp (c : Nat) : Bool :=
  decide (48 ≤ c ∧ c ≤ 57)

/-- The character class `[aeiouAEIOU]` used by the syllable proxy. -/
def isVowel (c : Nat) : Bool :=
  c == 97 || c == 101 || c == 105 || c == 111 || c == 117 ||
  c == 65 || c == 69 || c == 73 || c == 79 || c == 85

/-- ASCII lower-case letter (the class `[a-z]`). -/
def isLowerAlpha (c : Nat) : Bool :=
  decide (97 ≤ c ∧ c ≤ 122)

/-- Source `toLowerCase` on one code point (ASCII mapping). -/
def toLowerCp (c : Nat) : Nat :=
  if 65 ≤ c ∧ c ≤ 90 then c + 32 else c

/-- Source `toUpperCase` on one code point (ASCII mapping). -/
def toUpperCp (c : Nat) : Nat :=
  if 97 ≤ c ∧ c ≤ 122 then c - 32 else c

/-- Source `text.trim()`: strip leading and trailing whitespace. -/
def trimStr (l : List Nat) : List Nat :=
  ((l.dropWhile isWs).reverse.dropWhile isWs).reverse

/-- Source `text.split(re)` for a one-or-more character-class regex such as
`/[.!?]+/` or `/\s+/`: a run of consecutive separator characters makes a
single split point. -/
def splitRuns (p : Nat → Bool) : List Nat → List (List Nat)
  | [] => [[]]
  | c :: cs =>
    if p c then
      match cs.head? with
      | some d => if p d then splitRuns p cs else [] :: splitRuns p cs
      | none => [] :: splitRuns p cs
    else
      (splitRuns p cs).modifyHead (c :: ·)

/-- Source `text.split(re)` for a single character-class regex such as
`/[aeiouAEIOU]/`: every separator character is its own split point. -/
def splitSingle (p : Nat → Bool) : List Nat → List (List Nat)
  | [] => [[]]
  | c :: cs =>
    if p c then [] :: splitSingle p cs
    else (splitSingle p cs).modifyHead (c :: ·)

/-- Source `text.replace(/\s+/g, t)` for a single replacement character `t`:
collapse every whitespace run to one copy of `t`. -/
def collapseWsWith (t : Nat) : List Nat → List Nat
  | [] => []
  | c :: cs =>
    if isWs c then
      match cs.head? with
      | some d => if isWs d then collapseWsWith t cs else t :: collapseWsWith t cs
      | none => t :: collapseWsWith t cs
    else
      c :: collapseWsWith t cs

/-! ## Conversion engine (`textConversions` / `specialConversions` in `App.jsx`) -/

/-- Source `lowerCase: (text) => text.toLowerCase()` -/
def lowerCase (l : List Nat) : List Nat :=
  l.map toLowerCp

/-- Source `upperCase: (text) => text.toUpperCase()` -/
def upperCase (l : List Nat) : List Nat :=
  l.map toUpperCp

/-- Source `reverseText: (text) => text.split('').reverse().join('')` -/
def reverseText (l : List Nat) : List Nat :=
  l.reverse

/-- Source `trimWhitespace: (text) => text.trim()` -/
def trimWhitespace (l : List Nat) : List Nat :=
  trimStr l

/-- Source `removeExtraSpaces: (text) => text.replace(/\s+/g, ' ')` -/
def removeExtraSpaces (l : List Nat) : List Nat :=
  collapseWsWith 32 l

/-- Source `removeSpaces: (text) => text.replace(/\s/g, '')` -/
def removeSpaces (l : List Nat) : List Nat :=
  l.filter (fun c => ! isWs c)

/-- Source `removeLineBreaks: (text) => text.replace(/\n/g, '')` -/
def removeLineBreaks (l : List Nat) : List Nat :=
  l.filter (fun c => c ≠ 10)

/-- Source `snakeCase: (text) => text.toLowerCase().replace(/\s+/g, '_')` -/
def snakeCase (l : List Nat) : List Nat :=
  collapseWsWith 95 (l.map toLowerCp)

/-- Source `kebabCase: (text) => text.toLowerCase().replace(/\s+/g, '-')` -/
def kebabCase (l : List Nat) : List Nat :=
  collapseWsWith 45 (l.map toLowerCp)

/-- Scanner for `titleCase`'s regex `/\w\S*/g`: the flag records whether
the scanner is inside a match (a token that began at a word character and
extends over the following non-whitespace characters).  The first
character of a match is uppercased, the rest lowercased, characters
outside every match are left unchanged. -/
def titleGo (inTok : Bool) : List Nat → List Nat
  | [] => []
  | c :: cs =>
    if inTok then
      if isWs c then c :: titleGo false cs
      else toLowerCp c :: titleGo true cs
    else
      if isWordChar c then toUpperCp c :: titleGo true cs
      else c :: titleGo false cs

/-- Source `titleCase: (text) => text.replace(/\w\S*\/g, (txt) =>
txt.charAt(0).toUpperCase() + txt.substr(1).toLowerCase())` -/
def titleCase (l : List Nat) : List Nat :=
  titleGo false l

/-- States of the scanner for `sentenceCase`'s regex `/(^\w|\.\s+\w)/g`:
at the string head, right after a `.`, after a `.` plus at least one
whitespace character, or anywhere else. -/
inductive SCState where
  | atHead
  | afterDot
  | afterDotWs
  | other
deriving DecidableEq

/-- Transition of the `sentenceCase` scanner on one (lowercased) code
point. -/
def scStep (st : SCState) (c : Nat) : SCState :=
  if c = 46 then SCState.afterDot
  else if isWs c = true ∧ (st = SCState.afterDot ∨ st = SCState.afterDotWs) then
    SCState.afterDotWs
  else SCState.other

/-- Body of the `sentenceCase` scanner: a word character is uppercased
exactly when the regex `(^\w|\.\s+\w)` matches there, i.e. at the string
head or after a period followed by one or more whitespace characters. -/
def scGo (st : SCState) : List Nat → List Nat
  | [] => []
  | c :: cs =>
    (if isWordChar c = true ∧ (st = SCState.atHead ∨ st = SCState.afterDotWs) then
      toUpperCp c
    else c) :: scGo (scStep st c) cs

/-- Source `sentenceCase: (text) => text.toLowerCase().replace(/(^\w|\.\s+\w)/g,
(match) => match.toUpperCase())` -/
def sentenceCase (l : List Nat) : List Nat :=
  scGo SCState.atHead (l.map toLowerCp)

/-- Source `alternatingCase`: even (0-based) positions lowercased, odd positions
uppercased. -/
def altGo (even : Bool) : List Nat → List Nat
  | [] => []
  | c :: cs => (if even then toLowerCp c else toUpperCp c) :: altGo (! even) cs

/-- Source `alternatingCase: (text) => text.split('').map((char, index) =>
index % 2 === 0 ? char.toLowerCase() : char.toUpperCase()).join('')` -/
def alternatingCase (l : List Nat) : List Nat :=
  altGo true l

/-- Source `inverseCase: (text) => text.split('').map((char, index) =>
index % 2 === 1 ? char.toLowerCase() : char.toUpperCase()).join('')` -/
def inverseCase (l : List Nat) : List Nat :=
  altGo false l

/-! ## Computable rational arithmetic

The embedding models JavaScript number arithmetic over `ℚ`.  Mathlib's
field operations on `ℚ` are marked irreducible, so the engine is defined
over the explicit fraction operations below (each proved equal to the
corresponding field operation), keeping every concrete run of the engine
evaluable by `decide`. -/

/-- Addition of rationals by cross-multiplication. -/
def qAdd (a b : ℚ) : ℚ :=
  mkRat (a.num * b.den + b.num * a.den) (a.den * b.den)

/-- Negation of a rational. -/
def qNeg (a : ℚ) : ℚ :=
  mkRat (-a.num) a.den

/-- Subtraction of rationals. -/
def qSub (a b : ℚ) : ℚ :=
  qAdd a (qNeg b)

/-- Multiplication of rationals. -/
def qMul (a b : ℚ) : ℚ :=
  mkRat (a.num * b.num) (a.den * b.den)

/-- Division of rationals (zero when the divisor is zero). -/
def qDiv (a b : ℚ) : ℚ :=
  if 0 ≤ b.num then mkRat (a.num * b.den) (a.den * b.num.natAbs)
  else mkRat (-(a.num * b.den)) (a.den * b.num.natAbs)

/-- Comparison of rationals by cross-multiplication. -/
def qLeB (a b : ℚ) : Bool :=
  decide (a.num * (b.den : ℤ) ≤ b.num * (a.den : ℤ))

/-- Strict comparison of rationals. -/
def qLtB (a b : ℚ) : Bool :=
  ! qLeB b a

/-- Maximum of two rationals. -/
def qMax (a b : ℚ) : ℚ :=
  if qLeB a b then b else a

/-- Minimum of two rationals. -/
def qMin (a b : ℚ) : ℚ :=
  if qLeB a b then a else b

/-- The rational value of a natural number count. -/
def natQ (n : Nat) : ℚ :=
  mkRat n 1

/-- JavaScript `Math.round` over `ℚ`: the floor of `x + 1/2` (JS rounds
half-way cases toward positive infinity). -/
def qRound (x : ℚ) : ℤ :=
  Rat.floor (qAdd x (mkRat 1 2))

theorem den_cast_ne_zero (a : ℚ) : ((a.den : ℚ)) ≠ 0 := by
  exact_mod_cast a.den_nz

theorem mul_den_eq_num (a : ℚ) : a * (a.den : ℚ) = (a.num : ℚ) := by
  nth_rewrite 1 [← Rat.num_div_den a]
  rw [div_mul_cancel₀ _ (den_cast_ne_zero a)]

theorem qAdd_eq (a b : ℚ) : qAdd a b = a + b := by
  have ha := den_cast_ne_zero a
  have hb := den_cast_ne_zero b
  rw [qAdd, Rat.mkRat_eq_divInt, Rat.divInt_eq_div]
  push_cast
  conv_rhs => rw [← Rat.num_div_den a, ← Rat.num_div_den b, div_add_div _ _ ha hb]
  ring_nf

theorem qNeg_eq (a : ℚ) : qNeg a = -a := by
  rw [qNeg, Rat.mkRat_eq_divInt, Rat.divInt_eq_div]
  push_cast
  rw [neg_div, Rat.num_div_den]

theorem qSub_eq (a b : ℚ) : qSub a b = a - b := by
  rw [qSub, qAdd_eq, qNeg_eq, sub_eq_add_neg]

theorem qMul_eq (a b : ℚ) : qMul a b = a * b := by
  rw [qMul, Rat.mkRat_eq_divInt, Rat.divInt_eq_div]
  push_cast
  conv_rhs => rw [← Rat.num_div_den a, ← Rat.num_div_den b, div_mul_div_comm]

theorem div_num_den (a b : ℚ) : a / b = ((a.num : ℚ) * b.den) / ((a.den : ℚ) * b.num) := by
  by_cases hb : b.num = 0
  · have hb0 : b = 0 := Rat.num_eq_zero.mp hb
    rw [hb0]
    simp
  · have hbq : b ≠ 0 := Rat.num_ne_zero.mp hb
    have hd : ((a.den : ℚ)) * (b.num : ℚ) ≠ 0 :=
      mul_ne_zero (den_cast_ne_zero a) (by exact_mod_cast hb)
    rw [div_eq_div_iff hbq hd]
    have h1 := mul_den_eq_num a
    have h2 := mul_den_eq_num b
    linear_combination (b.num : ℚ) * h1 - (a.num : ℚ) * h2

theorem qDiv_eq (a b : ℚ) : qDiv a b = a / b := by
  rw [qDiv]
  by_cases h : 0 ≤ b.num
  · rw [if_pos h, Rat.mkRat_eq_divInt, Rat.divInt_eq_div]
    conv_rhs => rw [div_num_den a b]
    push_cast
    rw [abs_of_nonneg (show (0:ℚ) ≤ (b.num:ℚ) by exact_mod_cast h)]
  · rw [if_neg h, Rat.mkRat_eq_divInt, Rat.divInt_eq_div]
    conv_rhs => rw [div_num_den a b]
    push_cast
    rw [abs_of_nonpos (show (b.num:ℚ) ≤ 0 by exact_mod_cast le_of_not_le h)]
    rw [mul_neg, neg_div_neg_eq]

theorem qLeB_eq (a b : ℚ) : qLeB a b = decide (a ≤ b) := by
  rw [qLeB, decide_eq_decide, ← Rat.le_def]

theorem qLtB_eq (a b : ℚ) : qLtB a b = decide (a < b) := by
  rw [qLtB, qLeB_eq]
  by_cases h : a < b
  · simp [h, not_le.mpr h]
  · simp [h, not_lt.mp h]

theorem qMax_eq (a b : ℚ) : qMax a b = max a b := by
  rw [qMax, qLeB_eq, max_def]
  by_cases h : a ≤ b <;> simp [h]

theorem qMin_eq (a b : ℚ) : qMin a b = min a b := by
  rw [qMin, qLeB_eq, min_def]
  by_cases h : a ≤ b <;> simp [h]

theorem natQ_eq (n : Nat) : natQ n = (n : ℚ) := by
  rw [natQ, Rat.mkRat_one]
  push_cast
  rfl

theorem rat_floor_eq (q : ℚ) : Rat.floor q = ⌊q⌋ := by
  rw [Rat.floor_def, Rat.floor_def']

theorem qRound_eq (x : ℚ) : qRound x = ⌊x + 1/2⌋ := by
  have h : (mkRat 1 2 : ℚ) = 1/2 := by
    rw [Rat.mkRat_eq_divInt, Rat.divInt_eq_div]
    norm_num
  rw [qRound, qAdd_eq, h, rat_floor_eq]

/-! ## Analysis engine (the `TextAnalysis` component) -/

/-- The character class `[.!?]` of the sentence split. -/
def isTerm (c : Nat) : Bool :=
  c == 46 || c == 33 || c == 63

/-- The stop-word set excluded from the word-frequency ranking. -/
def stopWords : List (List Nat) :=
  [str ("the"), str ("a"), str ("an"), str ("and"), str ("or"), str ("but"),
   str ("in"), str ("on"), str ("at"), str ("to"), str ("for"), str ("of"),
   str ("with"), str ("by"), str ("is"), str ("are"), str ("was"), str ("were"),
   str ("be"), str ("been"), str ("have"), str ("has"), str ("had"), str ("do"),
   str ("does"), str ("did"), str ("will"), str ("would"), str ("could"),
   str ("should"), str ("may"), str ("might"), str ("must"), str ("can"),
   str ("this"), str ("that"), str ("these"), str ("those"), str ("i"),
   str ("you"), str ("he"), str ("she"), str ("it"), str ("we"), str ("they"),
   str ("me"), str ("him"), str ("her"), str ("us"), str ("them")]

/-- The tokens fed to the word-frequency counter:
`text.toLowerCase().replace(/[^\w\s]/g, '').split(/\s+/)`. -/
def freqTokens (s : List Nat) : List (List Nat) :=
  splitRuns isWs ((s.map toLowerCp).filter (fun c => isWordChar c || isWs c))

/-- A token enters the frequency table when it is longer than two
characters and is not a stop word. -/
def acceptTok (w : List Nat) : Prop :=
  2 < w.length ∧ w ∉ stopWords

instance (w : List Nat) : Decidable (acceptTok w) :=
  inferInstanceAs (Decidable (_ ∧ _))

/-- Increment the count of a key in an association list, keeping the
insertion order of keys (`wordFreq[word] = (wordFreq[word] || 0) + 1`). -/
def bumpCount {α : Type} [DecidableEq α] (k : α) : List (α × Nat) → List (α × Nat)
  | [] => [(k, 1)]
  | (k', n) :: rest =>
    if k' = k then (k', n + 1) :: rest else (k', n) :: bumpCount k rest

/-- The word-frequency table, keys in first-occurrence order. -/
def buildFreq (toks : List (List Nat)) : List (List Nat × Nat) :=
  toks.foldl (fun acc w => if acceptTok w then bumpCount w acc else acc) []

/-- Numeric value of a digit string. -/
def natOfDigits (w : List Nat) : Nat :=
  w.foldl (fun a c => 10 * a + (c - 48)) 0

/-- A JavaScript object key that is an array index: the canonical decimal
numeral of an integer below `2^32 - 1`.  `Object.entries` enumerates such
keys first, in ascending numeric order, before the remaining string keys
in insertion order. -/
def isIndexKey (w : List Nat) : Bool :=
  decide (w ≠ [] ∧ (∀ c ∈ w, isDigitCp c = true) ∧
    (w.head? = some 48 → w = [48]) ∧ natOfDigits w < 4294967295)

/-- Ascending numeric order on the array-index keys. -/
def keyLe (a b : List Nat × Nat) : Prop :=
  natOfDigits a.1 ≤ natOfDigits b.1

instance : DecidableRel keyLe :=
  fun _ _ => Nat.decLe _ _

/-- Enumeration order of `Object.entries(wordFreq)`: array-index keys in
ascending numeric order first, then the other keys in insertion order. -/
def jsEntries (fl : List (List Nat × Nat)) : List (List Nat × Nat) :=
  List.insertionSort keyLe (fl.filter (fun p => isIndexKey p.1)) ++
    fl.filter (fun p => ! isIndexKey p.1)

/-- Comparison by descending count; the stable sort
`.sort(([,a],[,b]) => b - a)` orders by this relation and keeps the
enumeration order of equal counts. -/
def countGe {α : Type} (a b : α × Nat) : Prop :=
  b.2 ≤ a.2

instance {α : Type} : DecidableRel (countGe (α := α)) :=
  fun _ _ => Nat.decLe _ _

instance {α : Type} : IsTotal (α × Nat) countGe :=
  ⟨fun a b => Nat.le_total b.2 a.2⟩

instance {α : Type} : IsTrans (α × Nat) countGe :=
  ⟨fun _ _ _ h1 h2 => Nat.le_trans h2 h1⟩

/-- Source `mostCommonWords`: count the accepted tokens, enumerate the table in
JavaScript object order, sort by descending count (stable) and keep the
first five entries. -/
def mostCommonWordsOf (s : List Nat) : List (List Nat × Nat) :=
  (List.insertionSort countGe (jsEntries (buildFreq (freqTokens s)))).take 5

/-- Source `characterFrequency`: count the ASCII letters of the lowercased,
whitespace-free text and keep the five most frequent (single-letter keys
are never array indices, so enumeration is insertion order). -/
def charFrequencyOf (s : List Nat) : List (Nat × Nat) :=
  (List.insertionSort countGe
    (((s.map toLowerCp).filter (fun c => ! isWs c)).foldl
      (fun acc c => if isLowerAlpha c then bumpCount c acc else acc) [])).take 5

/-- Source `words`: token count of the trimmed text, 0 when it is empty. -/
def wordsCount (s : List Nat) : Nat :=
  if trimStr s = [] then 0 else (splitRuns isWs (trimStr s)).length

/-- Source `sentences`: segments of `text.split(/[.!?]+/)` whose trimmed content
is non-empty. -/
def sentencesCount (s : List Nat) : Nat :=
  ((splitRuns isTerm s).filter (fun seg => ! (trimStr seg).isEmpty)).length

/-- One step of `text.split(/\n\s*\n/)`: `acc` is the reversed current
segment and `wsbuf` the reversed pending whitespace run.  A completed
whitespace run containing at least two newlines is a separator match from
its first to its last newline (`\s*` is greedy, backtracking to the last
newline of the run); the run's prefix stays with the left segment and its
suffix with the right one. -/
def paraGo (acc : List Nat) (wsbuf : Option (List Nat)) : List Nat → List (List Nat)
  | [] =>
    match wsbuf with
    | none => [acc.reverse]
    | some b =>
      if 2 ≤ b.count 10 then
        [acc.reverse ++ (b.reverse.takeWhile (fun c => c ≠ 10)),
         (b.takeWhile (fun c => c ≠ 10)).reverse]
      else
        [acc.reverse ++ b.reverse]
  | c :: cs =>
    if isWs c then
      match wsbuf with
      | none => paraGo acc (some [c]) cs
      | some b => paraGo acc (some (c :: b)) cs
    else
      match wsbuf with
      | none => paraGo (c :: acc) none cs
      | some b =>
        if 2 ≤ b.count 10 then
          (acc.reverse ++ (b.reverse.takeWhile (fun c => c ≠ 10))) ::
            paraGo (c :: b.takeWhile (fun c => c ≠ 10)) none cs
        else
          paraGo (c :: (b ++ acc)) none cs

/-- Source `paragraphs`: segments of `text.split(/\n\s*\n/)` whose trimmed
content is non-empty. -/
def paragraphsCount (s : List Nat) : Nat :=
  ((paraGo [] none s).filter (fun seg => ! (trimStr seg).isEmpty)).length

/-- The rational value of an integer. -/
def intQ (z : ℤ) : ℚ :=
  mkRat z 1

/-- Source `averageWordsPerSentence`: `Math.round(words / sentences * 10) / 10`,
0 when there is no sentence. -/
def awpsQ (s : List Nat) : ℚ :=
  if sentencesCount s = 0 then 0
  else qDiv (intQ (qRound (qMul (qDiv (natQ (wordsCount s)) (natQ (sentencesCount s))) (natQ 10)))) (natQ 10)

/-- Source `avgSyllables`: `text.split(/[aeiouAEIOU]/).length / words`, 0 when
there is no word. -/
def avgSyllablesQ (s : List Nat) : ℚ :=
  if wordsCount s = 0 then 0
  else qDiv (natQ (splitSingle isVowel s).length) (natQ (wordsCount s))

/-- The clamped Flesch-style readability value
`Math.max(0, Math.min(100, 206.835 - 1.015*avgSentenceLength - 84.6*avgSyllables))`. -/
def readabilityRawQ (s : List Nat) : ℚ :=
  qMax 0 (qMin 100
    (qSub (qSub (mkRat 206835 1000) (qMul (mkRat 1015 1000) (awpsQ s)))
      (qMul (mkRat 846 10) (avgSyllablesQ s))))

/-- Source `charactersNoSpaces`: length after deleting all whitespace. -/
def charsNoSpacesCount (s : List Nat) : Nat :=
  (s.filter (fun c => ! isWs c)).length

/-- The unrounded `avgWordLength = charactersNoSpaces / words || 0`. -/
def avgWordLengthRawQ (s : List Nat) : ℚ :=
  if wordsCount s = 0 then 0
  else qDiv (natQ (charsNoSpacesCount s)) (natQ (wordsCount s))

/-- The three complexity labels. -/
inductive TextComplexity where
  | simple
  | moderate
  | complex
deriving DecidableEq

/-- Source `textComplexity`: `Complex` when `avgSentenceLength > 20` or
`avgWordLength > 6`, else `Moderate` when `avgSentenceLength > 15` or
`avgWordLength > 5`, else `Simple`. -/
def complexityOf (s : List Nat) : TextComplexity :=
  if qLtB 20 (awpsQ s) || qLtB 6 (avgWordLengthRawQ s) then TextComplexity.complex
  else if qLtB 15 (awpsQ s) || qLtB 5 (avgWordLengthRawQ s) then TextComplexity.moderate
  else TextComplexity.simple

/-- The record computed by the analysis engine. -/
structure AnalysisReport where
  characters : Nat
  charactersNoSpaces : Nat
  words : Nat
  sentences : Nat
  paragraphs : Nat
  averageWordsPerSentence : ℚ
  readingTime : Nat
  readabilityScore : ℤ
  mostCommonWords : List (List Nat × Nat)
  characterFrequency : List (Nat × Nat)
  textComplexity : TextComplexity
  avgWordLength : ℚ
deriving DecidableEq

/-- The report returned for empty or whitespace-only input. -/
def zeroReport : AnalysisReport where
  characters := 0
  charactersNoSpaces := 0
  words := 0
  sentences := 0
  paragraphs := 0
  averageWordsPerSentence := 0
  readingTime := 0
  readabilityScore := 0
  mostCommonWords := []
  characterFrequency := []
  textComplexity := TextComplexity.simple
  avgWordLength := 0

/-- Source `analyze(text)`: the analysis computation of the `TextAnalysis`
component.  Empty or whitespace-only input short-circuits to the zero
report; otherwise every statistic is derived from the raw text. -/
def analyze (s : List Nat) : AnalysisReport :=
  if trimStr s = [] then zeroReport
  else
    { characters := s.length
      charactersNoSpaces := charsNoSpacesCount s
      words := wordsCount s
      sentences := sentencesCount s
      paragraphs := paragraphsCount s
      averageWordsPerSentence := awpsQ s
      readingTime := (wordsCount s + 199) / 200
      readabilityScore := qRound (readabilityRawQ s)
      mostCommonWords := mostCommonWordsOf s
      characterFrequency := charFrequencyOf s
      textComplexity := complexityOf s
      avgWordLength := qDiv (intQ (qRound (qMul (avgWordLengthRawQ s) (natQ 10)))) (natQ 10) }

/-! ## Caller state (`App.jsx`): conversion dispatch and history log -/

/-- One history record
`{id: Date.now(), input, output, type, timestamp}`. -/
structure HistoryEntry where
  id : Nat
  input : List Nat
  output : List Nat
  convType : List Nat
  timestamp : Nat
deriving DecidableEq

/-- The mutable state owned by the `App` component (the parts touched by
conversions): the input text, the output text and the history log. -/
structure AppState where
  inputText : List Nat
  outputText : List Nat
  conversionHistory : List HistoryEntry
deriving DecidableEq

/-- Source `handleConversion(conversionType, conversionFunction)`: a blank input
(`!inputText.trim()`) returns without any change; otherwise the converted
text becomes the output and a new entry is prepended to the history,
which keeps at most the previous nine entries
(`[historyEntry, ...prev.slice(0, 9)]`). -/
def handleConversion (ty : List Nat) (f : List Nat → List Nat) (now ts : Nat)
    (st : AppState) : AppState :=
  if trimStr st.inputText = [] then st
  else
    { st with
      outputText := f st.inputText
      conversionHistory :=
        HistoryEntry.mk now st.inputText (f st.inputText) ty ts ::
          st.conversionHistory.take 9 }

/-- States the `App` component can reach: the initial empty state, typing
into the input area, running a conversion, and the clear-all action. -/
inductive Reachable : AppState → Prop where
  | init : Reachable (AppState.mk [] [] [])
  | setInput (t : List Nat) {st : AppState} :
      Reachable st → Reachable { st with inputText := t }
  | convert (ty : List Nat) (f : List Nat → List Nat) (now ts : Nat) {st : AppState} :
      Reachable st → Reachable (handleConversion ty f now ts st)
  | clearAll {st : AppState} :
      Reachable st → Reachable { st with inputText := [], outputText := [] }

/-! ## Helper lemmas about the scanners -/

theorem ws_not_word {c : Nat} (h : isWs c = true) : isWordChar c = false := by
  simp only [isWs, Bool.or_eq_true, beq_iff_eq] at h
  rcases h with ((((rfl | rfl) | rfl) | rfl) | rfl) | rfl <;> decide

theorem toUpperCp_idem (c : Nat) : toUpperCp (toUpperCp c) = toUpperCp c := by
  unfold toUpperCp
  by_cases h : 97 ≤ c ∧ c ≤ 122
  · simp only [if_pos h]
    rw [if_neg (by omega : ¬(97 ≤ c - 32 ∧ c - 32 ≤ 122))]
  · simp only [if_neg h]

theorem toLowerCp_idem (c : Nat) : toLowerCp (toLowerCp c) = toLowerCp c := by
  unfold toLowerCp
  by_cases h : 65 ≤ c ∧ c ≤ 90
  · simp only [if_pos h]
    rw [if_neg (by omega : ¬(65 ≤ c + 32 ∧ c + 32 ≤ 90))]
  · simp only [if_neg h]

theorem dropWhile_head_not {p : Nat → Bool} :
    ∀ (l : List Nat) {c : Nat}, (l.dropWhile p).head? = some c → p c = false := by
  intro l
  induction l with
  | nil =>
    intro c h
    simp [List.dropWhile] at h
  | cons a as ih =>
    intro c h
    by_cases hp : p a = true
    · rw [List.dropWhile_cons_of_pos hp] at h
      exact ih h
    · rw [List.dropWhile_cons_of_neg hp] at h
      simp only [List.head?_cons, Option.some.injEq] at h
      rw [← h]
      exact Bool.eq_false_iff.mpr hp

theorem dropWhile_eq_self_of_head {p : Nat → Bool} {l : List Nat}
    (h : ∀ c, l.head? = some c → p c = false) : l.dropWhile p = l := by
  cases l with
  | nil => rfl
  | cons a as =>
    have ha := h a rfl
    rw [List.dropWhile_cons_of_neg (by simp [ha])]

theorem getLast?_dropWhile {p : Nat → Bool} :
    ∀ l : List Nat, l.dropWhile p ≠ [] → (l.dropWhile p).getLast? = l.getLast? := by
  intro l
  induction l with
  | nil =>
    intro h
    simp [List.dropWhile] at h
  | cons a as ih =>
    intro h
    by_cases hp : p a = true
    · rw [List.dropWhile_cons_of_pos hp] at h ⊢
      have has : as ≠ [] := by
        intro hnil
        rw [hnil] at h
        simp [List.dropWhile] at h
      cases as with
      | nil => exact absurd rfl has
      | cons b bs =>
        rw [ih h, List.getLast?_cons_cons]
    · rw [List.dropWhile_cons_of_neg hp]

theorem trimStr_head_not_ws {l : List Nat} {c : Nat}
    (h : (trimStr l).head? = some c) : isWs c = false := by
  rw [trimStr, List.head?_reverse] at h
  have hne : (l.dropWhile isWs).reverse.dropWhile isWs ≠ [] := by
    intro hnil
    rw [hnil] at h
    simp at h
  rw [getLast?_dropWhile _ hne, List.getLast?_reverse] at h
  exact dropWhile_head_not _ h

theorem trimStr_getLast_not_ws {l : List Nat} {c : Nat}
    (h : (trimStr l).getLast? = some c) : isWs c = false := by
  rw [trimStr, List.getLast?_reverse] at h
  exact dropWhile_head_not _ h

theorem trimStr_eq_nil_iff {l : List Nat} :
    trimStr l = [] ↔ ∀ c ∈ l, isWs c = true := by
  rw [trimStr, List.reverse_eq_nil_iff, List.dropWhile_eq_nil_iff]
  constructor
  · intro h c hc
    by_cases hw : isWs c = true
    · exact hw
    · have hmem : c ∈ l.dropWhile isWs := by
        have hsplit := List.takeWhile_append_dropWhile (p := isWs) (l := l)
        rw [← hsplit] at hc
        rcases List.mem_append.mp hc with htk | hdk
        · exact absurd (List.mem_takeWhile_imp htk) hw
        · exact hdk
      exact h c (List.mem_reverse.mpr hmem)
  · intro h c hc
    exact h c (List.dropWhile_subset _ (List.mem_reverse.mp hc))

theorem trimStr_idem (l : List Nat) : trimStr (trimStr l) = trimStr l := by
  by_cases hnil : trimStr l = []
  · rw [hnil]
    rfl
  · have hhead : ∀ c, (trimStr l).head? = some c → isWs c = false :=
      fun c hc => trimStr_head_not_ws hc
    have hlast : ∀ c, ((trimStr l).reverse.head? = some c) → isWs c = false := by
      intro c hc
      rw [List.head?_reverse] at hc
      exact trimStr_getLast_not_ws hc
    rw [trimStr, dropWhile_eq_self_of_head hhead, dropWhile_eq_self_of_head hlast,
      List.reverse_reverse]

theorem splitRuns_ne_nil (p : Nat → Bool) : ∀ l : List Nat, splitRuns p l ≠ []
  | [] => by simp [splitRuns]
  | a :: as => by
    cases hp : p a with
    | true =>
      cases has : as.head? with
      | none => simp [splitRuns, hp, has]
      | some d =>
        cases hd : p d <;> simp [splitRuns, hp, has, hd] <;>
          exact splitRuns_ne_nil p as
    | false =>
      obtain ⟨x, t, hxt⟩ : ∃ x t, splitRuns p as = x :: t := by
        cases hsr : splitRuns p as with
        | nil => exact absurd hsr (splitRuns_ne_nil p as)
        | cons x t => exact ⟨x, t, rfl⟩
      simp [splitRuns, hp, hxt]

theorem getLast?_cons_of_ne_nil {a : Nat} {as : List Nat} (h : as ≠ []) :
    (a :: as).getLast? = as.getLast? := by
  cases as with
  | nil => exact absurd rfl h
  | cons b bs => rw [List.getLast?_cons_cons]

theorem splitRuns_parts {p : Nat → Bool} :
    ∀ l : List Nat, (∀ c, l.getLast? = some c → p c = false) →
      (l ≠ [] → (∀ c, l.head? = some c → p c = false) → [] ∉ splitRuns p l) ∧
      [] ∉ (splitRuns p l).tail := by
  intro l
  induction l with
  | nil =>
    intro _
    exact ⟨fun h _ => absurd rfl h, by simp [splitRuns]⟩
  | cons a as ih =>
    intro hlast
    cases hp : p a with
    | true =>
      cases as with
      | nil => exact absurd (hlast a rfl) (by simp [hp])
      | cons d ds =>
        have hlast' : ∀ c, (d :: ds).getLast? = some c → p c = false := by
          intro c hc
          exact hlast c (by rw [getLast?_cons_of_ne_nil (by simp), hc])
        cases hd : p d with
        | true =>
          have heq : splitRuns p (a :: d :: ds) = splitRuns p (d :: ds) := by
            simp [splitRuns, hp, hd]
          have h2 := (ih hlast').2
          refine ⟨fun _ hhead => absurd (hhead a rfl) (by simp [hp]), ?_⟩
          rw [heq]
          exact h2
        | false =>
          have heq : splitRuns p (a :: d :: ds) = [] :: splitRuns p (d :: ds) := by
            simp [splitRuns, hp, hd]
          have h1 := (ih hlast').1 (by simp)
            (fun c hc => by
              simp only [List.head?_cons, Option.some.injEq] at hc
              rw [← hc]
              exact hd)
          refine ⟨fun _ hhead => absurd (hhead a rfl) (by simp [hp]), ?_⟩
          rw [heq]
          exact h1
    | false =>
      have hlast' : ∀ c, as.getLast? = some c → p c = false := by
        intro c hc
        cases as with
        | nil => simp at hc
        | cons b bs =>
          exact hlast c (by rw [getLast?_cons_of_ne_nil (by simp), hc])
      obtain ⟨x, t, hxt⟩ : ∃ x t, splitRuns p as = x :: t := by
        cases hsr : splitRuns p as with
        | nil => exact absurd hsr (splitRuns_ne_nil p as)
        | cons x t => exact ⟨x, t, rfl⟩
      have heq : splitRuns p (a :: as) = (a :: x) :: t := by
        simp [splitRuns, hp, hxt]
      have h2 := (ih hlast').2
      rw [hxt] at h2
      constructor
      · intro _ _
        rw [heq]
        intro hmem
        rcases List.mem_cons.mp hmem with hbad | hbad
        · exact absurd hbad.symm (by simp)
        · exact h2 hbad
      · rw [heq]
        exact h2

theorem splitRuns_no_empty {p : Nat → Bool} {l : List Nat} (hne : l ≠ [])
    (hh : ∀ c, l.head? = some c → p c = false)
    (hl : ∀ c, l.getLast? = some c → p c = false) : [] ∉ splitRuns p l :=
  (splitRuns_parts l hl).1 hne hh

theorem splitRuns_of_no_sep {p : Nat → Bool} :
    ∀ l : List Nat, (∀ c ∈ l, p c = false) → splitRuns p l = [l] := by
  intro l
  induction l with
  | nil => intro _; rfl
  | cons a as ih =>
    intro h
    have ha : p a = false := h a (by simp)
    have has : splitRuns p as = [as] := ih (fun c hc => h c (by simp [hc]))
    simp [splitRuns, ha, has]

theorem length_splitSingle (p : Nat → Bool) :
    ∀ l : List Nat, (splitSingle p l).length = l.countP p + 1 := by
  intro l
  induction l with
  | nil => rfl
  | cons a as ih =>
    cases hp : p a <;> simp [splitSingle, hp, List.countP_cons, ih]

theorem collapse_idem {t : Nat} (ht : isWs t = true) :
    ∀ l : List Nat, collapseWsWith t (collapseWsWith t l) = collapseWsWith t l := by
  intro l
  induction l with
  | nil => rfl
  | cons c cs ih =>
    cases hc : isWs c with
    | true =>
      cases cs with
      | nil =>
        simp [collapseWsWith, hc, ht]
      | cons d ds =>
        cases hd : isWs d with
        | true =>
          have heq : collapseWsWith t (c :: d :: ds) = collapseWsWith t (d :: ds) := by
            simp [collapseWsWith, hc, hd]
          rw [heq, ih]
        | false =>
          have heq : collapseWsWith t (c :: d :: ds) = t :: collapseWsWith t (d :: ds) := by
            simp [collapseWsWith, hc, hd]
          have hx : collapseWsWith t (d :: ds) = d :: collapseWsWith t ds := by
            simp [collapseWsWith, hd]
          rw [heq, hx]
          have houter : collapseWsWith t (t :: d :: collapseWsWith t ds) =
              t :: collapseWsWith t (d :: collapseWsWith t ds) := by
            simp [collapseWsWith, ht, hd]
          rw [houter, ← hx, ih]
    | false =>
      have heq : collapseWsWith t (c :: cs) = c :: collapseWsWith t cs := by
        simp [collapseWsWith, hc]
      rw [heq]
      have houter : collapseWsWith t (c :: collapseWsWith t cs) =
          c :: collapseWsWith t (collapseWsWith t cs) := by
        simp [collapseWsWith, hc]
      rw [houter, ih]

/-! ## Specification-side formulations of the case transforms -/

/-- Whether a word character occurs in the current maximal non-whitespace
run strictly before the present position (`pre` is the text already
read). -/
def runBeforeHasWord (pre : List Nat) : Bool :=
  (pre.reverse.takeWhile (fun c => ! isWs c)).any isWordChar

/-- Character output of the title-case transform described positionally:
inside each maximal non-whitespace run, the first word character (and
everything before it unchanged) is uppercased and the characters after it
are lowercased; runs without a word character and whitespace are left
unchanged. -/
def titleSpecEmit (pre : List Nat) (c : Nat) : Nat :=
  if isWs c = true then c
  else if isWordChar c = true ∧ runBeforeHasWord pre = false then toUpperCp c
  else if runBeforeHasWord pre = true then toLowerCp c
  else c

/-- The positional title-case transform over a full string. -/
def titleSpecGo (pre : List Nat) : List Nat → List Nat
  | [] => []
  | c :: cs => titleSpecEmit pre c :: titleSpecGo (pre ++ [c]) cs

/-- Title case described by `\w\S*` tokens: in each maximal
non-whitespace run that contains a word character, the first word
character is uppercased and the following characters of the run are
lowercased. -/
def titleCaseTokens (l : List Nat) : List Nat :=
  titleSpecGo [] l

/-- Title case as the claim words it: each maximal run of word characters
(`\w+`) has its first character uppercased and its remainder lowercased,
all other characters unchanged.  The flag records being inside such a
run. -/
def titleWordGo (inWord : Bool) : List Nat → List Nat
  | [] => []
  | c :: cs =>
    if isWordChar c = true then
      (if inWord then toLowerCp c else toUpperCp c) :: titleWordGo true cs
    else c :: titleWordGo false cs

/-- The claimed word-run-by-word-run title case. -/
def titleCaseClaimed (l : List Nat) : List Nat :=
  titleWordGo false l

theorem runBeforeHasWord_append (pre : List Nat) (c : Nat) :
    runBeforeHasWord (pre ++ [c]) =
      if isWs c = true then false else (isWordChar c || runBeforeHasWord pre) := by
  unfold runBeforeHasWord
  rw [List.reverse_append]
  cases hw : isWs c with
  | true => simp [List.takeWhile_cons, hw]
  | false => simp [List.takeWhile_cons, hw]

theorem titleGo_eq_spec : ∀ (l pre : List Nat),
    titleGo (runBeforeHasWord pre) l = titleSpecGo pre l := by
  intro l
  induction l with
  | nil => intro pre; rfl
  | cons c cs ih =>
    intro pre
    have hstep := runBeforeHasWord_append pre c
    rw [titleSpecGo, ← ih (pre ++ [c])]
    cases hb : runBeforeHasWord pre with
    | true =>
      cases hw : isWs c with
      | true =>
        rw [hw, if_pos rfl] at hstep
        simp [titleGo, titleSpecEmit, hb, hw, hstep]
      | false =>
        rw [hw] at hstep
        simp only [Bool.false_eq_true, if_false] at hstep
        rw [hb, Bool.or_true] at hstep
        simp [titleGo, titleSpecEmit, hb, hw, hstep]
    | false =>
      cases hw : isWs c with
      | true =>
        have hwc := ws_not_word hw
        rw [hw, if_pos rfl] at hstep
        simp [titleGo, titleSpecEmit, hb, hw, hwc, hstep]
      | false =>
        rw [hw] at hstep
        simp only [Bool.false_eq_true, if_false] at hstep
        rw [hb, Bool.or_false] at hstep
        cases hwc : isWordChar c with
        | true =>
          rw [hwc] at hstep
          simp [titleGo, titleSpecEmit, hb, hw, hwc, hstep]
        | false =>
          rw [hwc] at hstep
          simp [titleGo, titleSpecEmit, hb, hw, hwc, hstep]

theorem titleCase_eq_tokens (l : List Nat) : titleCase l = titleCaseTokens l := by
  rw [titleCase, titleCaseTokens, ← titleGo_eq_spec l []]
  rfl

/-- The text read so far ends with a period followed by one or more
whitespace characters. -/
def endsWithDotWs (pre : List Nat) : Bool :=
  decide ((pre.reverse.takeWhile isWs) ≠ [] ∧
    (pre.reverse.dropWhile isWs).head? = some 46)

/-- The text read so far ends with a period or an exclamation mark
followed by one or more whitespace characters (the claimed behaviour of
sentence case). -/
def endsWithTermWs (pre : List Nat) : Bool :=
  decide ((pre.reverse.takeWhile isWs) ≠ [] ∧
    ((pre.reverse.dropWhile isWs).head? = some 46 ∨
     (pre.reverse.dropWhile isWs).head? = some 33))

/-- Positional sentence-case transform: a word character preceded by
nothing (string head) or by text satisfying `q` is uppercased. -/
def scSpecGo (q : List Nat → Bool) (pre : List Nat) : List Nat → List Nat
  | [] => []
  | c :: cs =>
    (if isWordChar c = true ∧ (pre = [] ∨ q pre = true) then toUpperCp c else c) ::
      scSpecGo q (pre ++ [c]) cs

/-- Lowercase the whole string, then uppercase the word characters at the
positions selected by `q` (or at the string head). -/
def sentenceCaseSpec (q : List Nat → Bool) (l : List Nat) : List Nat :=
  scSpecGo q [] (l.map toLowerCp)

/-- The state of the sentence-case scanner as a function of the text read
so far. -/
def classify (pre : List Nat) : SCState :=
  if pre = [] then SCState.atHead
  else if pre.getLast? = some 46 then SCState.afterDot
  else if endsWithDotWs pre = true then SCState.afterDotWs
  else SCState.other

theorem isWs_dot : isWs 46 = false := by decide

theorem classify_atHead_iff (pre : List Nat) :
    classify pre = SCState.atHead ↔ pre = [] := by
  unfold classify
  by_cases h : pre = []
  · simp [h]
  · simp only [if_neg h]
    constructor
    · intro hc
      by_cases h46 : pre.getLast? = some 46
      · rw [if_pos h46] at hc
        exact absurd hc (by simp)
      · rw [if_neg h46] at hc
        by_cases hdw : endsWithDotWs pre = true
        · rw [if_pos hdw] at hc
          exact absurd hc (by simp)
        · rw [if_neg hdw] at hc
          exact absurd hc (by simp)
    · intro hc
      exact absurd hc h

theorem takeWhile_ne_nil_head {p : Nat → Bool} {d : Nat} {r : List Nat} :
    (d :: r).takeWhile p ≠ [] ↔ p d = true := by
  cases hp : p d <;> simp [List.takeWhile_cons, hp]

theorem endsWithDotWs_last_ws {pre : List Nat} (h : endsWithDotWs pre = true) :
    ∃ d r, pre.reverse = d :: r ∧ isWs d = true := by
  rw [endsWithDotWs, decide_eq_true_iff] at h
  cases hr : pre.reverse with
  | nil =>
    rw [hr] at h
    simp at h
  | cons d r =>
    rw [hr] at h
    exact ⟨d, r, rfl, takeWhile_ne_nil_head.mp h.1⟩

theorem classify_afterDotWs_iff (pre : List Nat) :
    classify pre = SCState.afterDotWs ↔ endsWithDotWs pre = true := by
  unfold classify
  constructor
  · intro hc
    by_cases h : pre = []
    · rw [if_pos h] at hc
      exact absurd hc (by simp)
    · rw [if_neg h] at hc
      by_cases h46 : pre.getLast? = some 46
      · rw [if_pos h46] at hc
        exact absurd hc (by simp)
      · rw [if_neg h46] at hc
        by_cases hdw : endsWithDotWs pre = true
        · exact hdw
        · rw [if_neg hdw] at hc
          exact absurd hc (by simp)
  · intro hdw
    obtain ⟨d, r, hr, hwd⟩ := endsWithDotWs_last_ws hdw
    have hne : pre ≠ [] := by
      intro hnil
      rw [hnil] at hr
      simp at hr
    have h46 : pre.getLast? ≠ some 46 := by
      rw [← List.head?_reverse, hr]
      simp only [List.head?_cons, ne_eq, Option.some.injEq]
      intro hd46
      rw [hd46] at hwd
      exact absurd hwd (by simp [isWs_dot])
    rw [if_neg hne, if_neg h46, if_pos hdw]

theorem dropWhile_head_dot_iff (pre : List Nat) :
    (pre.reverse.dropWhile isWs).head? = some 46 ↔
      (classify pre = SCState.afterDot ∨ classify pre = SCState.afterDotWs) := by
  cases hr : pre.reverse with
  | nil =>
    have hpre : pre = [] := by
      have := congrArg List.reverse hr
      simpa using this
    rw [hpre]
    simp [classify, List.dropWhile]
  | cons d r =>
    have hne : pre ≠ [] := by
      intro hnil
      rw [hnil] at hr
      simp at hr
    have hlast : pre.getLast? = some d := by
      rw [← List.head?_reverse, hr]
      rfl
    by_cases hd46 : d = 46
    · subst hd46
      rw [List.dropWhile_cons_of_neg (by simp [isWs_dot])]
      simp only [List.head?_cons, Option.some.injEq]
      constructor
      · intro _
        left
        rw [classify, if_neg hne, if_pos hlast]
      · intro _
        trivial
    · cases hwd : isWs d with
      | true =>
        rw [List.dropWhile_cons_of_pos hwd]
        have hclass : classify pre ≠ SCState.afterDot := by
          rw [classify, if_neg hne]
          rw [hlast]
          rw [if_neg (by simp [hd46])]
          by_cases hdw : endsWithDotWs pre = true
          · rw [if_pos hdw]
            simp
          · rw [if_neg hdw]
            simp
        have hdw_iff : endsWithDotWs pre = true ↔ (r.dropWhile isWs).head? = some 46 := by
          rw [endsWithDotWs, decide_eq_true_iff, hr,
            List.dropWhile_cons_of_pos hwd]
          simp [List.takeWhile_cons, hwd]
        constructor
        · intro hh
          right
          rw [classify_afterDotWs_iff, hdw_iff]
          exact hh
        · intro hh
          rcases hh with hh | hh
          · exact absurd hh hclass
          · rw [classify_afterDotWs_iff, hdw_iff] at hh
            exact hh
      | false =>
        rw [List.dropWhile_cons_of_neg (by simp [hwd])]
        simp only [List.head?_cons, Option.some.injEq]
        constructor
        · intro hh
          exact absurd hh hd46
        · intro hh
          rcases hh with hh | hh
          · rw [classify, if_neg hne, hlast] at hh
            rw [if_neg (by simp [hd46])] at hh
            by_cases hdw : endsWithDotWs pre = true
            · rw [if_pos hdw] at hh
              exact absurd hh (by simp)
            · rw [if_neg hdw] at hh
              exact absurd hh (by simp)
          · rw [classify_afterDotWs_iff] at hh
            obtain ⟨d', r', hr', hwd'⟩ := endsWithDotWs_last_ws hh
            rw [hr] at hr'
            have : d = d' := by
              injection hr' with h1 _
            rw [← this] at hwd'
            exact absurd hwd' (by simp [hwd])

theorem classify_append (pre : List Nat) (c : Nat) :
    classify (pre ++ [c]) = scStep (classify pre) c := by
  have hne : pre ++ [c] ≠ [] := by simp
  have hlast : (pre ++ [c]).getLast? = some c := by simp
  by_cases h46 : c = 46
  · subst h46
    rw [classify, if_neg hne, if_pos hlast, scStep, if_pos rfl]
  · rw [scStep, if_neg h46]
    rw [classify, if_neg hne, if_neg (by rw [hlast]; simp [h46])]
    cases hw : isWs c with
    | false =>
      have hdw : endsWithDotWs (pre ++ [c]) = false := by
        rw [endsWithDotWs, decide_eq_false_iff_not]
        intro hcon
        obtain ⟨htk, _⟩ := hcon
        have hrev : (pre ++ [c]).reverse = c :: pre.reverse := by simp
        rw [hrev, List.takeWhile_cons_of_neg (by simp [hw])] at htk
        exact htk rfl
      rw [if_neg (by simp [hdw])]
      rw [if_neg (by intro hcon; exact absurd hcon.1 (by simp))]
    | true =>
      have hrev : (pre ++ [c]).reverse = c :: pre.reverse := by simp
      have hdw_iff : endsWithDotWs (pre ++ [c]) = true ↔
          (pre.reverse.dropWhile isWs).head? = some 46 := by
        rw [endsWithDotWs, decide_eq_true_iff, hrev, List.dropWhile_cons_of_pos hw]
        simp [List.takeWhile_cons, hw]
      by_cases hst : classify pre = SCState.afterDot ∨ classify pre = SCState.afterDotWs
      · rw [if_pos (hdw_iff.mpr ((dropWhile_head_dot_iff pre).mpr hst)),
          if_pos ⟨rfl, hst⟩]
      · rw [if_neg (fun hcon =>
            hst ((dropWhile_head_dot_iff pre).mp (hdw_iff.mp hcon))),
          if_neg (fun hcon => hst hcon.2)]

theorem scGo_eq_spec : ∀ (l pre : List Nat),
    scGo (classify pre) l = scSpecGo endsWithDotWs pre l := by
  intro l
  induction l with
  | nil => intro pre; rfl
  | cons c cs ih =>
    intro pre
    rw [scSpecGo, ← ih (pre ++ [c]), classify_append, scGo]
    congr 1
    have hcond : (classify pre = SCState.atHead ∨ classify pre = SCState.afterDotWs) ↔
        (pre = [] ∨ endsWithDotWs pre = true) := by
      rw [classify_atHead_iff, classify_afterDotWs_iff]
    by_cases hc : isWordChar c = true ∧
        (classify pre = SCState.atHead ∨ classify pre = SCState.afterDotWs)
    · rw [if_pos hc, if_pos ⟨hc.1, hcond.mp hc.2⟩]
    · rw [if_neg hc, if_neg (fun hcon => hc ⟨hcon.1, hcond.mpr hcon.2⟩)]

theorem sentenceCase_eq_spec (l : List Nat) :
    sentenceCase l = sentenceCaseSpec endsWithDotWs l := by
  rw [sentenceCase, sentenceCaseSpec, ← scGo_eq_spec]
  rfl

/-! ## Specification-side formulations for the analysis engine -/

/-- The maximal whitespace-delimited tokens of a text: the non-empty
segments of the whitespace split. -/
def wordTokensSpec (l : List Nat) : List (List Nat) :=
  (splitRuns isWs l).filter (fun seg => ! seg.isEmpty)

/-- The sentence segments: the segments of the terminator split that
contain at least one non-whitespace character. -/
def sentenceSegmentsSpec (s : List Nat) : List (List Nat) :=
  (splitRuns isTerm s).filter (fun seg => seg.any (fun c => ! isWs c))

/-- The number of fragments the text splits into at its vowels: one more
than the number of vowel occurrences. -/
def specVowelSplits (s : List Nat) : Nat :=
  s.countP isVowel + 1

/-- The vowel-split count divided by the word count (0 without words). -/
def specAvgSyllables (s : List Nat) : ℚ :=
  if wordsCount s = 0 then 0 else (specVowelSplits s : ℚ) / (wordsCount s : ℚ)

/-- Clamp a rational into `[0, 100]`. -/
def specClamp (x : ℚ) : ℚ :=
  max 0 (min 100 x)

/-- The readability score as the specification words it:
`clamp(206.835 - 1.015*averageWordsPerSentence - 84.6*avgSyllables, 0, 100)`
rounded to the nearest integer. -/
def specReadability (s : List Nat) : ℤ :=
  ⌊specClamp ((206.835 : ℚ) - (1.015 : ℚ) * (analyze s).averageWordsPerSentence -
    (84.6 : ℚ) * specAvgSyllables s) + 1/2⌋

/-- The frequency ranking as the claim words it: stable descending sort
of the table in first-occurrence order, top five. -/
def specMostCommonFirstOcc (s : List Nat) : List (List Nat × Nat) :=
  (List.insertionSort countGe (buildFreq (freqTokens s))).take 5

theorem mkRat_c1 : (mkRat 206835 1000 : ℚ) = (206.835 : ℚ) := by
  rw [Rat.mkRat_eq_divInt, Rat.divInt_eq_div]
  norm_num

theorem mkRat_c2 : (mkRat 1015 1000 : ℚ) = (1.015 : ℚ) := by
  rw [Rat.mkRat_eq_divInt, Rat.divInt_eq_div]
  norm_num

theorem mkRat_c3 : (mkRat 846 10 : ℚ) = (84.6 : ℚ) := by
  rw [Rat.mkRat_eq_divInt, Rat.divInt_eq_div]
  norm_num

theorem avgSyllablesQ_eq (s : List Nat) : avgSyllablesQ s = specAvgSyllables s := by
  unfold avgSyllablesQ specAvgSyllables
  by_cases h : wordsCount s = 0
  · rw [if_pos h, if_pos h]
  · rw [if_neg h, if_neg h, qDiv_eq, natQ_eq, natQ_eq, length_splitSingle]
    rfl

theorem readabilityRawQ_eq (s : List Nat) :
    readabilityRawQ s =
      specClamp ((206.835 : ℚ) - (1.015 : ℚ) * awpsQ s -
        (84.6 : ℚ) * specAvgSyllables s) := by
  unfold readabilityRawQ specClamp
  rw [qMax_eq, qMin_eq, qSub_eq, qSub_eq, qMul_eq, qMul_eq, avgSyllablesQ_eq,
    mkRat_c1, mkRat_c2, mkRat_c3]

theorem ws_not_term {c : Nat} (h : isWs c = true) : isTerm c = false := by
  simp only [isWs, Bool.or_eq_true, beq_iff_eq] at h
  rcases h with ((((rfl | rfl) | rfl) | rfl) | rfl) | rfl <;> decide

theorem blank_iff_no_ink (seg : List Nat) :
    (! (trimStr seg).isEmpty) = seg.any (fun c => ! isWs c) := by
  cases hA : seg.any (fun c => ! isWs c) with
  | false =>
    have hall : ∀ c ∈ seg, isWs c = true := by
      intro c hc
      have := List.any_eq_false.mp hA c hc
      simpa using this
    rw [trimStr_eq_nil_iff.mpr hall]
    rfl
  | true =>
    obtain ⟨c, hc, hw⟩ := List.any_eq_true.mp hA
    have hne : trimStr seg ≠ [] := by
      intro hnil
      have := trimStr_eq_nil_iff.mp hnil c hc
      simp [this] at hw
    cases htr : trimStr seg with
    | nil => exact absurd htr hne
    | cons x xs => rfl

theorem wordsCount_eq_tokens (s : List Nat) :
    wordsCount s = (wordTokensSpec (trimStr s)).length := by
  unfold wordsCount wordTokensSpec
  by_cases h : trimStr s = []
  · rw [if_pos h, h]
    rfl
  · rw [if_neg h]
    have hne := splitRuns_no_empty h (fun c hc => trimStr_head_not_ws hc)
      (fun c hc => trimStr_getLast_not_ws hc)
    rw [List.filter_eq_self.mpr ?_]
    intro a ha
    cases hcase : a with
    | nil =>
      rw [hcase] at ha
      exact absurd ha hne
    | cons x xs => rfl

theorem sentencesCount_eq_spec (s : List Nat) :
    sentencesCount s = (sentenceSegmentsSpec s).length := by
  unfold sentencesCount sentenceSegmentsSpec
  congr 1
  apply List.filter_congr
  intro seg _
  exact blank_iff_no_ink seg

theorem sentencesCount_blank {s : List Nat} (h : trimStr s = []) :
    sentencesCount s = 0 := by
  have hall := trimStr_eq_nil_iff.mp h
  have hnosep : ∀ c ∈ s, isTerm c = false := fun c hc => ws_not_term (hall c hc)
  rw [sentencesCount, splitRuns_of_no_sep s hnosep]
  simp [List.filter, h]

theorem mem_map_fst_bumpCount {α : Type} [DecidableEq α] (k : α) :
    ∀ (acc : List (α × Nat)) (p : α × Nat), p ∈ bumpCount k acc →
      p.1 = k ∨ p.1 ∈ acc.map Prod.fst := by
  intro acc
  induction acc with
  | nil =>
    intro p hp
    simp only [bumpCount, List.mem_singleton] at hp
    left
    rw [hp]
  | cons a rest ih =>
    intro p hp
    obtain ⟨k', n⟩ := a
    by_cases hk : k' = k
    · rw [bumpCount, if_pos hk] at hp
      rcases List.mem_cons.mp hp with h | h
      · left
        rw [h, ← hk]
      · right
        rw [List.map_cons]
        exact List.mem_cons_of_mem _ (List.mem_map_of_mem _ h)
    · rw [bumpCount, if_neg hk] at hp
      rcases List.mem_cons.mp hp with h | h
      · right
        rw [h, List.map_cons]
        exact List.mem_cons_self _ _
      · rcases ih p h with h1 | h1
        · left
          exact h1
        · right
          rw [List.map_cons]
          exact List.mem_cons_of_mem _ h1

theorem mem_foldl_freq :
    ∀ (toks : List (List Nat)) (acc : List (List Nat × Nat)) (p : List Nat × Nat),
      p ∈ toks.foldl (fun acc w => if acceptTok w then bumpCount w acc else acc) acc →
      p.1 ∈ acc.map Prod.fst ∨ (acceptTok p.1 ∧ p.1 ∈ toks) := by
  intro toks
  induction toks with
  | nil =>
    intro acc p hp
    left
    exact List.mem_map_of_mem _ hp
  | cons w ws ih =>
    intro acc p hp
    rw [List.foldl_cons] at hp
    rcases ih _ p hp with h | h
    · by_cases haw : acceptTok w
      · rw [if_pos haw] at h
        obtain ⟨q, hq, hq1⟩ := List.mem_map.mp h
        rcases mem_map_fst_bumpCount w acc q hq with h1 | h1
        · right
          constructor
          · rw [← hq1, h1]
            exact haw
          · rw [← hq1, h1]
            exact List.mem_cons_self _ _
        · left
          rw [← hq1]
          exact h1
      · rw [if_neg haw] at h
        left
        exact h
    · right
      exact ⟨h.1, List.mem_cons_of_mem _ h.2⟩

theorem mem_buildFreq {toks : List (List Nat)} {p : List Nat × Nat}
    (h : p ∈ buildFreq toks) : acceptTok p.1 ∧ p.1 ∈ toks := by
  rcases mem_foldl_freq toks [] p h with h1 | h1
  · simp at h1
  · exact h1

theorem jsEntries_perm (fl : List (List Nat × Nat)) : List.Perm (jsEntries fl) fl := by
  unfold jsEntries
  exact ((List.perm_insertionSort keyLe _).append_right _).trans
    (List.filter_append_perm _ fl)

theorem toLowerCp_ws {c : Nat} (h : isWs c = true) : toLowerCp c = c := by
  simp only [isWs, Bool.or_eq_true, beq_iff_eq] at h
  rcases h with ((((rfl | rfl) | rfl) | rfl) | rfl) | rfl <;> decide

theorem splitRuns_all_sep {p : Nat → Bool} :
    ∀ l : List Nat, (∀ c ∈ l, p c = true) → ∀ seg ∈ splitRuns p l, seg = [] := by
  intro l
  induction l with
  | nil =>
    intro _ seg hseg
    simp [splitRuns] at hseg
    exact hseg
  | cons a as ih =>
    intro h seg hseg
    have ha : p a = true := h a (by simp)
    have ih' := ih (fun c hc => h c (by simp [hc]))
    cases has : as.head? with
    | none =>
      simp only [splitRuns, ha, if_pos, has] at hseg
      rcases List.mem_cons.mp hseg with h1 | h1
      · exact h1
      · exact ih' seg h1
    | some d =>
      have hd : p d = true := by
        cases as with
        | nil => simp at has
        | cons x xs =>
          simp only [List.head?_cons, Option.some.injEq] at has
          exact has ▸ h x (by simp)
      simp only [splitRuns, ha, if_pos, has, hd, if_true] at hseg
      exact ih' seg hseg

theorem freqTokens_blank {s : List Nat} (h : trimStr s = []) :
    ∀ w ∈ freqTokens s, w = [] := by
  intro w hw
  apply splitRuns_all_sep _ ?_ w hw
  intro c hc
  obtain ⟨hmem, _⟩ := List.mem_filter.mp hc
  obtain ⟨c', hc', rfl⟩ := List.mem_map.mp hmem
  have hws := trimStr_eq_nil_iff.mp h c' hc'
  rwa [toLowerCp_ws hws]

theorem foldl_no_accept :
    ∀ (toks : List (List Nat)) (acc : List (List Nat × Nat)),
      (∀ w ∈ toks, ¬ acceptTok w) →
      toks.foldl (fun acc w => if acceptTok w then bumpCount w acc else acc) acc = acc := by
  intro toks
  induction toks with
  | nil => intro acc _; rfl
  | cons w ws ih =>
    intro acc h
    rw [List.foldl_cons, if_neg (h w (by simp))]
    exact ih acc (fun v hv => h v (by simp [hv]))

theorem buildFreq_blank {s : List Nat} (h : trimStr s = []) :
    buildFreq (freqTokens s) = [] := by
  rw [buildFreq]
  apply foldl_no_accept
  intro w hw
  rw [freqTokens_blank h w hw]
  intro hacc
  exact absurd hacc.1 (by decide)

theorem analyze_mostCommonWords_eq (s : List Nat) :
    (analyze s).mostCommonWords =
      (List.insertionSort countGe (jsEntries (buildFreq (freqTokens s)))).take 5 := by
  by_cases h : trimStr s = []
  · rw [analyze, if_pos h, buildFreq_blank h]
    rfl
  · rw [analyze, if_neg h]
    rfl

/-! ## The claims -/

/-- The scenario input of C1/C2. -/
def helloInput : List Nat :=
  str ("Hello world. This is a test.")

/-- C1: analyze counts words as the maximal whitespace-delimited tokens
of the trimmed input and sentences as the segments with content (after
splitting on runs of `.`, `!`, `?`, segments of pure whitespace counting
as empty); in particular, for "Hello world. This is a test." it returns
words = 6, sentences = 2, averageWordsPerSentence = 3.0 and
textComplexity = Simple. -/
theorem analyze_words_sentences_scenario :
    (∀ s : List Nat, (analyze s).words = (wordTokensSpec (trimStr s)).length) ∧
    (∀ s : List Nat, (analyze s).sentences = (sentenceSegmentsSpec s).length) ∧
    (analyze helloInput).words = 6 ∧
    (analyze helloInput).sentences = 2 ∧
    (analyze helloInput).averageWordsPerSentence = 3 ∧
    (analyze helloInput).textComplexity = TextComplexity.simple := by
  refine ⟨?_, ?_, by decide, by decide, by decide, by decide⟩
  · intro s
    by_cases h : trimStr s = []
    · rw [analyze, if_pos h, h]
      rfl
    · rw [analyze, if_neg h]
      exact wordsCount_eq_tokens s
  · intro s
    by_cases h : trimStr s = []
    · rw [analyze, if_pos h, ← sentencesCount_eq_spec s, sentencesCount_blank h]
      rfl
    · rw [analyze, if_neg h]
      exact sentencesCount_eq_spec s

/-- C2: for every input with a non-whitespace character, the readability
score is `clamp(206.835 - 1.015*averageWordsPerSentence -
84.6*avgSyllables, 0, 100)` rounded to the nearest integer, where
avgSyllables is the vowel-split count of the whole text divided by the
word count. -/
theorem analyze_readability_formula (s : List Nat) (h : trimStr s ≠ []) :
    (analyze s).readabilityScore = specReadability s := by
  have hawps : (analyze s).averageWordsPerSentence = awpsQ s := by
    rw [analyze, if_neg h]
  have hscore : (analyze s).readabilityScore = qRound (readabilityRawQ s) := by
    rw [analyze, if_neg h]
  rw [hscore, qRound_eq, readabilityRawQ_eq, specReadability, hawps]

/-- Witness for C2 at the scenario input: the hypothesis holds and the
formula gives the published score. -/
theorem analyze_readability_formula_witness :
    trimStr helloInput ≠ [] ∧
    (analyze helloInput).readabilityScore = specReadability helloInput :=
  ⟨by decide, analyze_readability_formula helloInput (by decide)⟩

/-- C3 counterexample: on the one-space input the report has
characters = 0 while the code-point length of the raw input is 1. -/
theorem analyze_characters_whitespace_counterexample :
    (analyze (str (" "))).characters = 0 ∧ (str (" ")).length = 1 ∧
    (analyze (str (" "))).characters ≠ (str (" ")).length :=
  ⟨by decide, by decide, by decide⟩

/-- C3 (amended): characters equals the code-point length of the raw
input whenever the input has a non-whitespace character; empty or
whitespace-only input short-circuits to the zero report, so characters is
then 0. -/
theorem analyze_characters_amended (s : List Nat) :
    (analyze s).characters = if trimStr s = [] then 0 else s.length := by
  by_cases h : trimStr s = []
  · rw [analyze, if_pos h, if_pos h]
    rfl
  · rw [analyze, if_neg h, if_neg h]

/-- C4 counterexample: on "zzz 123" the two tokens tie with count 1 and
first occurrence order is zzz before 123, but the report lists 123 first,
because JavaScript object enumeration puts the array-index key "123"
before the insertion-ordered key "zzz". -/
theorem mostCommonWords_tie_counterexample :
    (analyze (str ("zzz 123"))).mostCommonWords =
      [(str ("123"), 1), (str ("zzz"), 1)] ∧
    specMostCommonFirstOcc (str ("zzz 123")) =
      [(str ("zzz"), 1), (str ("123"), 1)] ∧
    (analyze (str ("zzz 123"))).mostCommonWords ≠
      specMostCommonFirstOcc (str ("zzz 123")) :=
  ⟨by decide, by decide, by decide⟩

/-- C4 (amended): mostCommonWords is at most five pairs drawn from the
lowercased, punctuation-stripped, whitespace-split tokens longer than two
characters and outside the stop-word set, sorted stably by descending
count over the JavaScript object enumeration of the frequency table —
array-index keys (canonical digit strings) in ascending numeric order
first, then the remaining keys in first-occurrence order. -/
theorem mostCommonWords_amended (s : List Nat) :
    (analyze s).mostCommonWords.length ≤ 5 ∧
    List.Sorted countGe (analyze s).mostCommonWords ∧
    (∀ p ∈ (analyze s).mostCommonWords, acceptTok p.1 ∧ p.1 ∈ freqTokens s) ∧
    (analyze s).mostCommonWords =
      (List.insertionSort countGe (jsEntries (buildFreq (freqTokens s)))).take 5 := by
  have hmain := analyze_mostCommonWords_eq s
  refine ⟨?_, ?_, ?_, hmain⟩
  · rw [hmain, List.length_take]
    exact min_le_left _ _
  · rw [hmain]
    exact (List.sorted_insertionSort countGe _).sublist (List.take_sublist 5 _)
  · intro p hp
    rw [hmain] at hp
    have h1 : p ∈ List.insertionSort countGe (jsEntries (buildFreq (freqTokens s))) :=
      List.take_subset 5 _ hp
    have h2 : p ∈ jsEntries (buildFreq (freqTokens s)) :=
      (List.perm_insertionSort countGe _).mem_iff.mp h1
    have h3 : p ∈ buildFreq (freqTokens s) :=
      (jsEntries_perm _).mem_iff.mp h2
    exact mem_buildFreq h3

/-- C5 counterexample: on "a-b" the code produces "A-b" (the token
`\w\S*` spans the hyphen), while treating each `\w`-word individually
would produce "A-B". -/
theorem titleCase_hyphen_counterexample :
    titleCase (str ("a-b")) = str ("A-b") ∧
    titleCaseClaimed (str ("a-b")) = str ("A-B") ∧
    titleCase (str ("a-b")) ≠ titleCaseClaimed (str ("a-b")) :=
  ⟨by decide, by decide, by decide⟩

/-- C5 (amended): titleCase uppercases the first word character of each
maximal non-whitespace run and lowercases the rest of that run (the
`\w\S*` token), leaving whitespace and runs without a word character
unchanged. -/
theorem titleCase_amended :
    (∀ l : List Nat, titleCase l = titleCaseTokens l) ∧
    titleCase (str ("a-b")) = str ("A-b") :=
  ⟨titleCase_eq_tokens, by decide⟩

/-- C6 counterexample: on "a! b" the code produces "A! b" — the regex
`\.\s+\w` only fires after a period, so the letter after "! " stays
lowercase, though the claim would uppercase it. -/
theorem sentenceCase_bang_counterexample :
    sentenceCase (str ("a! b")) = str ("A! b") ∧
    sentenceCaseSpec endsWithTermWs (str ("a! b")) = str ("A! B") ∧
    sentenceCase (str ("a! b")) ≠ sentenceCaseSpec endsWithTermWs (str ("a! b")) :=
  ⟨by decide, by decide, by decide⟩

/-- C6 (amended): sentenceCase lowercases the whole string and then
uppercases the word character at the string head and every word character
preceded by a period plus one or more whitespace characters — only ". ",
not "! ". -/
theorem sentenceCase_amended :
    (∀ l : List Nat, sentenceCase l = sentenceCaseSpec endsWithDotWs l) ∧
    sentenceCase (str ("a. b c")) = str ("A. B c") :=
  ⟨sentenceCase_eq_spec, by decide⟩

/-- C7: upperCase, lowerCase, trimWhitespace and removeExtraSpaces are
idempotent. -/
theorem conversions_idempotent (s : List Nat) :
    upperCase (upperCase s) = upperCase s ∧
    lowerCase (lowerCase s) = lowerCase s ∧
    trimWhitespace (trimWhitespace s) = trimWhitespace s ∧
    removeExtraSpaces (removeExtraSpaces s) = removeExtraSpaces s := by
  refine ⟨?_, ?_, trimStr_idem s, collapse_idem (by decide) s⟩
  · rw [upperCase, upperCase, List.map_map]
    exact List.map_congr_left (fun a _ => toUpperCp_idem a)
  · rw [lowerCase, lowerCase, List.map_map]
    exact List.map_congr_left (fun a _ => toLowerCp_idem a)

/-- C8: reverseText reverses the code-point sequence; "abc" becomes
"cba" and applying it twice returns the original string. -/
theorem reverseText_involutive :
    (∀ s : List Nat, reverseText s = s.reverse ∧ reverseText (reverseText s) = s) ∧
    reverseText (str ("abc")) = str ("cba") := by
  refine ⟨fun s => ⟨rfl, ?_⟩, by decide⟩
  rw [reverseText, reverseText, List.reverse_reverse]

/-- C9: the history log of every reachable state holds at most ten
entries; a successful conversion on non-blank input prepends exactly one
entry on top of the previous nine at most, the result never exceeds ten,
and at capacity the oldest entry is evicted. -/
theorem history_bounded :
    (∀ st : AppState, Reachable st → st.conversionHistory.length ≤ 10) ∧
    (∀ (ty : List Nat) (f : List Nat → List Nat) (now ts : Nat) (st : AppState),
      trimStr st.inputText ≠ [] →
        (handleConversion ty f now ts st).conversionHistory =
          HistoryEntry.mk now st.inputText (f st.inputText) ty ts ::
            st.conversionHistory.take 9 ∧
        (handleConversion ty f now ts st).conversionHistory.length ≤ 10 ∧
        (st.conversionHistory.length = 10 →
          (handleConversion ty f now ts st).conversionHistory =
            HistoryEntry.mk now st.inputText (f st.inputText) ty ts ::
              st.conversionHistory.dropLast)) := by
  have hstep : ∀ (ty : List Nat) (f : List Nat → List Nat) (now ts : Nat)
      (st : AppState), trimStr st.inputText ≠ [] →
      (handleConversion ty f now ts st).conversionHistory =
        HistoryEntry.mk now st.inputText (f st.inputText) ty ts ::
          st.conversionHistory.take 9 := by
    intro ty f now ts st h
    rw [handleConversion, if_neg h]
  constructor
  · intro st h
    induction h with
    | init => decide
    | setInput t h ih => exact ih
    | convert ty f now ts h ih =>
      rename_i stp
      by_cases hb : trimStr stp.inputText = []
      · rw [handleConversion, if_pos hb]
        exact ih
      · rw [hstep ty f now ts stp hb]
        have := List.length_take 9 stp.conversionHistory
        simp only [List.length_cons, this]
        omega
    | clearAll h ih => exact ih
  · intro ty f now ts st h
    refine ⟨hstep ty f now ts st h, ?_, ?_⟩
    · rw [hstep ty f now ts st h]
      have := List.length_take 9 st.conversionHistory
      simp only [List.length_cons, this]
      omega
    · intro h10
      rw [hstep ty f now ts st h, List.dropLast_eq_take, h10]

/-- Witness for C9: the initial state satisfies the bound and a concrete
conversion on "hi" prepends exactly one entry. -/
theorem history_bounded_witness :
    (AppState.mk [] [] []).conversionHistory.length ≤ 10 ∧
    (handleConversion (str ("upperCase")) upperCase 0 0
        (AppState.mk (str ("hi")) [] [])).conversionHistory =
      HistoryEntry.mk 0 (str ("hi")) (upperCase (str ("hi"))) (str ("upperCase")) 0 ::
        (AppState.mk (str ("hi")) [] []).conversionHistory.take 9 :=
  ⟨history_bounded.1 _ Reachable.init,
    (history_bounded.2 (str ("upperCase")) upperCase 0 0
      (AppState.mk (str ("hi")) [] []) (by decide)).1⟩

/-- C10: invoking any conversion while the input is empty or
whitespace-only leaves the state exactly as it was: no output change and
no history entry. -/
theorem blank_input_noop (ty : List Nat) (f : List Nat → List Nat) (now ts : Nat)
    (st : AppState) (h : trimStr st.inputText = []) :
    handleConversion ty f now ts st = st := by
  rw [handleConversion, if_pos h]

/-- Witness for C10: a whitespace-only input with pending output and an
arbitrary conversion leaves the state untouched. -/
theorem blank_input_noop_witness :
    trimStr (AppState.mk (str (" ")) (str ("x")) []).inputText = [] ∧
    handleConversion (str ("upperCase")) upperCase 0 0
        (AppState.mk (str (" ")) (str ("x")) []) =
      AppState.mk (str (" ")) (str ("x")) [] :=
  ⟨by decide, blank_input_noop _ _ _ _ _ (by decide)⟩
